import Mathlib

/-!
Verification development for the interest-expense projection engine.

The Python source is shallowly embedded over exact rationals (`ℚ`): the
engine works on IEEE doubles, and every arithmetic identity claimed by the
spec "within float tolerance" is verified here exactly over `ℚ`.  A second,
clearly-separated embedding over an extended value type `EFloat`
(finite rationals plus `inf`, `-inf`, `nan` with IEEE special-value
propagation rules) is used for the claims that are specifically about
non-finite values.  Calendar months are modelled as natural month numbers
(absolute count of months); the engine's `to_period("M").to_timestamp()`
normalisation, which maps a timestamp to the first day of its month, is the
identity on this representation.
-/

namespace InterestExpense

/-- `DebtState` from `src/engine/state.py`: principal outstanding in the
three interest-bearing buckets. -/
structure DebtState where
  stock_short : ℚ
  stock_nb : ℚ
  stock_tips : ℚ
deriving DecidableEq, Repr

/-- `DebtState.total` from `src/engine/state.py`. -/
def DebtState.total (s : DebtState) : ℚ :=
  s.stock_short + s.stock_nb + s.stock_tips

/-- `compute_redemptions` from `src/engine/transitions.py`:
bills roll fully (redeem 100% of the opening short stock), `nb`/`tips`
redeem a constant decay fraction of the opening stock. -/
def compute_redemptions (state : DebtState) (decay_nb decay_tips : ℚ) :
    ℚ × ℚ × ℚ :=
  let r_short := state.stock_short
  let r_nb := state.stock_nb * decay_nb
  let r_tips := state.stock_tips * decay_tips
  (r_short, r_nb, r_tips)

/-- `update_state` from `src/engine/transitions.py`: apply redemptions and
add new issuance, producing the next immutable `DebtState`. -/
def update_state (state : DebtState) (new_short new_nb new_tips : ℚ)
    (decay_nb decay_tips : ℚ) : DebtState :=
  let r := compute_redemptions state decay_nb decay_tips
  { stock_short := state.stock_short - r.1 + new_short
    stock_nb := state.stock_nb - r.2.1 + new_nb
    stock_tips := state.stock_tips - r.2.2 + new_tips }

/-- A per-month row of bucket-wise values (keys `short`, `nb`, `tips`),
used both for rate rows and issuance-share rows, mirroring the mappings
used throughout `src/macro/rates.py` and `src/macro/issuance.py`. -/
structure Buckets where
  short : ℚ
  nb : ℚ
  tips : ℚ
deriving DecidableEq, Repr

/-- The dictionary returned by `compute_interest` in
`src/engine/accrual.py`. -/
structure InterestResult where
  interest_short : ℚ
  interest_nb : ℚ
  interest_tips : ℚ
  interest_total : ℚ
deriving DecidableEq, Repr

/-- `compute_interest` from `src/engine/accrual.py`: monthly interest per
bucket = opening stock × (annual rate / 12); the `nb`/`tips` annual rates
are the optional existing-coupon overrides when supplied, else the
provider's current-month rates.  (Every `ℚ` value is finite, so the
claim's finiteness precondition on the rate row is automatic here.) -/
def compute_interest (state : DebtState) (rates_row : Buckets)
    (coupon_nb_existing_annual : Option ℚ)
    (coupon_tips_existing_annual : Option ℚ) : InterestResult :=
  let r_short_m := rates_row.short / 12
  let r_nb_m :=
    (match coupon_nb_existing_annual with
      | some c => c
      | none => rates_row.nb) / 12
  let r_tips_m :=
    (match coupon_tips_existing_annual with
      | some c => c
      | none => rates_row.tips) / 12
  let i_short := state.stock_short * r_short_m
  let i_nb := state.stock_nb * r_nb_m
  let i_tips := state.stock_tips * r_tips_m
  { interest_short := i_short
    interest_nb := i_nb
    interest_tips := i_tips
    interest_total := i_short + i_nb + i_tips }

/-- One record of the monthly trace assembled by `ProjectionEngine.run` in
`src/engine/project.py`: opening stocks, accrual fields, other-interest
input, issuance shares, GFN and redemption fields, keyed by month. -/
structure TraceRow where
  date : Nat
  stock_short : ℚ
  stock_nb : ℚ
  stock_tips : ℚ
  interest_short : ℚ
  interest_nb : ℚ
  interest_tips : ℚ
  interest_total : ℚ
  other_interest : ℚ
  shares_short : ℚ
  shares_nb : ℚ
  shares_tips : ℚ
  gfn : ℚ
  redemptions_short : ℚ
  redemptions_nb : ℚ
  redemptions_tips : ℚ
  redemptions_total : ℚ
deriving DecidableEq, Repr

/-- Pointwise model of `series.reindex(idx).fillna(0.0)` in
`ProjectionEngine.run`: the value of the association-list series at a
month, with months missing from the series replaced by `0.0`. -/
def seriesGet : List (Nat × ℚ) → Nat → ℚ
  | [], _ => 0
  | (k, v) :: rest, d => if k = d then v else seriesGet rest d

/-- The body of the monthly loop of `ProjectionEngine.run`
(`src/engine/project.py`, lines 41-80): accrue interest on the opening
state, compute redemptions, size the gross financing need, allocate new
issuance by shares, record the trace row and advance the state.  The rate
and share providers are represented by the per-month row functions their
`get` tables define on the index. -/
def run_step (rates shares : Nat → Buckets) (deficits other : Nat → ℚ)
    (decay_nb decay_tips : ℚ)
    (coupon_nb_existing_annual coupon_tips_existing_annual : Option ℚ)
    (state : DebtState) (dt : Nat) : TraceRow × DebtState :=
  let r_row := rates dt
  let sh_row := shares dt
  let acc := compute_interest state r_row coupon_nb_existing_annual
    coupon_tips_existing_annual
  let red := compute_redemptions state decay_nb decay_tips
  let red_total := red.1 + red.2.1 + red.2.2
  let gfn := deficits dt + acc.interest_total + other dt + red_total
  let new_short := sh_row.short * gfn
  let new_nb := sh_row.nb * gfn
  let new_tips := sh_row.tips * gfn
  (⟨dt, state.stock_short, state.stock_nb, state.stock_tips,
      acc.interest_short, acc.interest_nb, acc.interest_tips,
      acc.interest_total, other dt, sh_row.short, sh_row.nb, sh_row.tips,
      gfn, red.1, red.2.1, red.2.2, red_total⟩,
    update_state state new_short new_nb new_tips decay_nb decay_tips)

/-- The monthly loop of `ProjectionEngine.run`: fold `run_step` over the
month index, threading the state and collecting the trace rows. -/
def run_go (rates shares : Nat → Buckets) (deficits other : Nat → ℚ)
    (decay_nb decay_tips : ℚ) (coupon_nb coupon_tips : Option ℚ)
    (state : DebtState) : List Nat → List TraceRow
  | [] => []
  | dt :: rest =>
    let p := run_step rates shares deficits other decay_nb decay_tips
      coupon_nb coupon_tips state dt
    p.1 :: run_go rates shares deficits other decay_nb decay_tips
      coupon_nb coupon_tips p.2 rest

/-- `ProjectionEngine.run` from `src/engine/project.py`: reindex the
deficit and other-interest series to the month index with missing entries
zero-filled (`reindex(idx).fillna(0.0)`; a `None` other-interest series
becomes the all-zero series), then run the monthly loop and return the
trace.  (The trailing parquet/CSV persistence side effect of the source is
outside the returned-value semantics modelled here.) -/
def ProjectionEngine.run (rates shares : Nat → Buckets) (idx : List Nat)
    (start_state : DebtState) (deficits_monthly : List (Nat × ℚ))
    (other_interest_monthly : Option (List (Nat × ℚ)))
    (decay_nb decay_tips : ℚ) (coupon_nb coupon_tips : Option ℚ) :
    List TraceRow :=
  let deficits : Nat → ℚ := seriesGet deficits_monthly
  let other : Nat → ℚ :=
    match other_interest_monthly with
    | none => fun _ => 0
    | some s => seriesGet s
  run_go rates shares deficits other decay_nb decay_tips coupon_nb
    coupon_tips start_state idx

/-- The configuration errors raised by `_validate_shares_dict` in
`src/macro/issuance.py` (`ValueError` messages carrying the offending
share's name and value, respectively the offending total). -/
inductive ShareErr where
  | outOfBounds (name : String) (v : ℚ)
  | sumNotOne (total : ℚ)
deriving DecidableEq, Repr

instance {ε α : Type} [DecidableEq ε] [DecidableEq α] :
    DecidableEq (Except ε α) := fun x y =>
  match x, y with
  | .error a, .error b => decidable_of_iff (a = b) (by simp)
  | .ok a, .ok b => decidable_of_iff (a = b) (by simp)
  | .error _, .ok _ => isFalse fun h => Except.noConfusion h
  | .ok _, .error _ => isFalse fun h => Except.noConfusion h

/-- `_validate_shares_dict` from `src/macro/issuance.py`: each share must
lie in `[0,1]` (checked in the order `short`, `nb`, `tips`; over floats the
additional `isfinite` disjunct of the source is subsumed by the bounds
check, since NaN and ±Inf all fail `0.0 <= v <= 1.0`, and over `ℚ` it is
vacuous), and the three shares must sum to `1` within `1e-6`.  The
missing-key check of the source cannot fail here because the three shares
are passed positionally. -/
def _validate_shares_dict (s n t : ℚ) : Except ShareErr (ℚ × ℚ × ℚ) :=
  if ¬(0 ≤ s ∧ s ≤ 1) then .error (.outOfBounds "short" s)
  else if ¬(0 ≤ n ∧ n ≤ 1) then .error (.outOfBounds "nb" n)
  else if ¬(0 ≤ t ∧ t ≤ 1) then .error (.outOfBounds "tips" t)
  else if |s + n + t - 1| > 1 / 1000000 then .error (.sumNotOne (s + n + t))
  else .ok (s, n, t)

/-- `FixedSharesPolicy` from `src/macro/issuance.py`: constant issuance
shares across the horizon. -/
structure FixedSharesPolicy where
  short : ℚ
  nb : ℚ
  tips : ℚ
deriving DecidableEq, Repr

/-- The `__post_init__` validation of `FixedSharesPolicy`: construction
succeeds only when `_validate_shares_dict` accepts the three shares. -/
def mkFixedSharesPolicy (s n t : ℚ) : Except ShareErr FixedSharesPolicy :=
  match _validate_shares_dict s n t with
  | .error e => .error e
  | .ok _ => .ok ⟨s, n, t⟩

/-- `FixedSharesPolicy.get`: the identical validated share row for every
queried month. -/
def FixedSharesPolicy.get (p : FixedSharesPolicy) (idx : List Nat) :
    List Buckets :=
  idx.map fun _ => ⟨p.short, p.nb, p.tips⟩

/-- One raw input segment of `PiecewiseSharesPolicy`: a mapping with keys
`start`, `short`, `nb`, `tips` (the `start` key is present by
construction here, so the source's missing-`start` check cannot fail). -/
structure Segment where
  start : Nat
  short : ℚ
  nb : ℚ
  tips : ℚ
deriving DecidableEq, Repr

/-- The normalisation loop of `PiecewiseSharesPolicy.__post_init__`:
validate each segment's shares in order, stopping at the first failure,
and pair each start month with its validated share triple. -/
def normalizeSegments : List Segment → Except ShareErr (List (Nat × Buckets))
  | [] => .ok []
  | seg :: rest =>
    match _validate_shares_dict seg.short seg.nb seg.tips with
    | .error e => .error e
    | .ok v =>
      match normalizeSegments rest with
      | .error e => .error e
      | .ok l => .ok ((seg.start, ⟨v.1, v.2.1, v.2.2⟩) :: l)

/-- One step of a stable insertion sort by segment start: the new element
goes after every already-placed element whose start is `≤` its own, which
is exactly the ordering produced by Python's stable `list.sort(key=start)`
(duplicate starts keep the later list element later). -/
def insertSorted (a : Nat × Buckets) :
    List (Nat × Buckets) → List (Nat × Buckets)
  | [] => [a]
  | b :: l => if b.1 ≤ a.1 then b :: insertSorted a l else a :: b :: l

/-- The `norm_segments.sort(key=lambda x: x[0])` step of
`PiecewiseSharesPolicy.__post_init__`: a stable sort by start month. -/
def sortSegments (l : List (Nat × Buckets)) : List (Nat × Buckets) :=
  l.foldl (fun acc a => insertSorted a acc) []

/-- `PiecewiseSharesPolicy` after construction: the normalised, sorted
segment list stored in `self._segments`. -/
structure PiecewiseSharesPolicy where
  segments : List (Nat × Buckets)
deriving DecidableEq, Repr

/-- `PiecewiseSharesPolicy.__post_init__`: validate every segment, then
sort stably by start. -/
def mkPiecewiseSharesPolicy (segs : List Segment) :
    Except ShareErr PiecewiseSharesPolicy :=
  match normalizeSegments segs with
  | .error e => .error e
  | .ok norm => .ok ⟨sortSegments norm⟩

/-- The inner `for s, v in zip(starts, values)` loop of
`PiecewiseSharesPolicy.get`: walk the sorted segments, remembering the
last one whose start is `≤` the queried month, and break at the first
later start. -/
def pickSegment : List (Nat × Buckets) → Nat → Option Buckets → Option Buckets
  | [], _, pick => pick
  | (s, v) :: rest, d, pick =>
    if s ≤ d then pickSegment rest d (some v) else pick

/-- One month of `PiecewiseSharesPolicy.get`: the picked segment, falling
back to `values[0]` when the month precedes every start; `none` models the
`IndexError` that `values[0]` raises on an empty segment list. -/
def rowForMonth (segs : List (Nat × Buckets)) (d : Nat) : Option Buckets :=
  match pickSegment segs d none with
  | some v => some v
  | none => segs.head?.map Prod.snd

/-- The row-building loop of `PiecewiseSharesPolicy.get` over the queried
index; `none` models the raised `IndexError`. -/
def getRows (segs : List (Nat × Buckets)) : List Nat → Option (List Buckets)
  | [] => some []
  | d :: rest =>
    match rowForMonth segs d with
    | none => none
    | some v => (getRows segs rest).map fun l => v :: l

/-- `PiecewiseSharesPolicy.get` from `src/macro/issuance.py`. -/
def PiecewiseSharesPolicy.get (p : PiecewiseSharesPolicy)
    (idx : List Nat) : Option (List Buckets) :=
  getRows p.segments idx

/-- Modelled from the spec's words for the refinement claim about
`PiecewiseSharesPolicy.get`: select, for a queried month, the share triple
of the latest segment whose start is `≤` that month, and the first
segment's shares for months earlier than every start. -/
def specLatestSegment (segs : List (Nat × Buckets)) (d : Nat) :
    Option Buckets :=
  match (segs.filter fun sv => sv.1 ≤ d).getLast? with
  | some sv => some sv.2
  | none => segs.head?.map Prod.snd

/-- Modelled from the spec: the month → fiscal-year mapping of the
Glossary (a fiscal year runs October–September, offset from the calendar
year; the mapping is a pure function external to the core).  Months are
absolute month numbers, `12 * y + m` being 0-based calendar month `m` of
year `y`; October (`m = 9`) onwards belongs to the next fiscal year. -/
def fiscalYear (month : Nat) : Nat :=
  if month % 12 ≥ 9 then month / 12 + 1 else month / 12

/-- Modelled from the spec: the carry-forward scan of
`FiscalYearVariableRatesProvider` (the class is imported by
`scripts/run_forward.py` but absent from the source tree): walk the
fiscal-year → rate entries, remembering the rate of the last year not
after the queried fiscal year. -/
def carryLoop : List (Nat × ℚ) → Nat → Option ℚ → Option ℚ
  | [], _, last => last
  | (y, r) :: rest, fy, last =>
    carryLoop rest fy (if y ≤ fy then some r else last)

/-- Modelled from the spec: resolve a bucket's rate for a fiscal year from
its step function — the last known rate carried forward, with the earliest
available rate reused for years before the first entry (spec §9's observed
behaviour), so that a rate is always produced. -/
def carryForwardRate (entries : List (Nat × ℚ)) (fy : Nat) : ℚ :=
  match carryLoop entries fy none with
  | some r => r
  | none => (entries.head?.map Prod.snd).getD 0

/-- Modelled from the spec: `FiscalYearVariableRatesProvider` holds one
fiscal-year → annual-rate step function per bucket, each represented by
its entries in ascending year order. -/
structure FiscalYearVariableRatesProvider where
  short : List (Nat × ℚ)
  nb : List (Nat × ℚ)
  tips : List (Nat × ℚ)
deriving DecidableEq, Repr

/-- Modelled from the spec: construction fails with a configuration error,
before any simulation, exactly when some bucket has no rate defined at
all. -/
def mkFiscalYearVariableRatesProvider (short nb tips : List (Nat × ℚ)) :
    Except String FiscalYearVariableRatesProvider :=
  if short = [] then .error "no rate defined for bucket short"
  else if nb = [] then .error "no rate defined for bucket nb"
  else if tips = [] then .error "no rate defined for bucket tips"
  else .ok ⟨short, nb, tips⟩

/-- Modelled from the spec: `get` resolves, for every queried month, one
rate row by carrying each bucket's step function forward to the month's
fiscal year. -/
def FiscalYearVariableRatesProvider.get
    (p : FiscalYearVariableRatesProvider) (idx : List Nat) : List Buckets :=
  idx.map fun m =>
    ⟨carryForwardRate p.short (fiscalYear m),
      carryForwardRate p.nb (fiscalYear m),
      carryForwardRate p.tips (fiscalYear m)⟩

/-- Modelled from the spec's words for comparison with `carryForwardRate`:
the rate of the latest entry whose fiscal year is `≤` the queried fiscal
year, or the first entry's rate when the queried year precedes every
entry. -/
def specStepRate (entries : List (Nat × ℚ)) (fy : Nat) : Option ℚ :=
  match (entries.filter fun yr => yr.1 ≤ fy).getLast? with
  | some yr => some yr.2
  | none => entries.head?.map Prod.snd

/-- IEEE-double value as the engine actually computes with: a finite value
(exact rational, overflow to infinity out of scope) or one of the special
values `inf`, `-inf`, `nan`. -/
inductive EFloat where
  | fin (q : ℚ)
  | inf
  | ninf
  | nan
deriving DecidableEq, Repr

/-- Whether an `EFloat` is a finite number (not NaN/±Inf). -/
def EFloat.isFin : EFloat → Bool
  | .fin _ => true
  | _ => false

/-- IEEE addition on `EFloat`: NaN propagates, `inf + -inf` is NaN,
infinities absorb finite addends. -/
def EFloat.add : EFloat → EFloat → EFloat
  | .nan, _ => .nan
  | _, .nan => .nan
  | .inf, .ninf => .nan
  | .ninf, .inf => .nan
  | .inf, _ => .inf
  | _, .inf => .inf
  | .ninf, _ => .ninf
  | _, .ninf => .ninf
  | .fin a, .fin b => .fin (a + b)

/-- IEEE negation on `EFloat`. -/
def EFloat.neg : EFloat → EFloat
  | .fin q => .fin (-q)
  | .inf => .ninf
  | .ninf => .inf
  | .nan => .nan

/-- IEEE subtraction on `EFloat`. -/
def EFloat.sub (a b : EFloat) : EFloat := a.add b.neg

/-- IEEE multiplication on `EFloat`: NaN propagates, `±inf × 0` is NaN,
infinities keep sign rules. -/
def EFloat.mul : EFloat → EFloat → EFloat
  | .nan, _ => .nan
  | _, .nan => .nan
  | .inf, .inf => .inf
  | .inf, .ninf => .ninf
  | .ninf, .inf => .ninf
  | .ninf, .ninf => .inf
  | .inf, .fin b => if 0 < b then .inf else if b < 0 then .ninf else .nan
  | .fin a, .inf => if 0 < a then .inf else if a < 0 then .ninf else .nan
  | .ninf, .fin b => if 0 < b then .ninf else if b < 0 then .inf else .nan
  | .fin a, .ninf => if 0 < a then .ninf else if a < 0 then .inf else .nan
  | .fin a, .fin b => .fin (a * b)

/-- Division by the positive constant `12.0` on `EFloat` (the only
division the engine performs). -/
def EFloat.div12 : EFloat → EFloat
  | .fin q => .fin (q / 12)
  | .inf => .inf
  | .ninf => .ninf
  | .nan => .nan

/-- `DebtState` over IEEE-double values. -/
structure DebtStateE where
  stock_short : EFloat
  stock_nb : EFloat
  stock_tips : EFloat
deriving DecidableEq, Repr

/-- A bucket-keyed row over IEEE-double values. -/
structure BucketsE where
  short : EFloat
  nb : EFloat
  tips : EFloat
deriving DecidableEq, Repr

/-- `compute_interest` over IEEE-double values (same source lines as
`compute_interest`). -/
def computeInterestE (state : DebtStateE) (rates_row : BucketsE)
    (coupon_nb coupon_tips : Option EFloat) :
    EFloat × EFloat × EFloat × EFloat :=
  let r_short_m := rates_row.short.div12
  let r_nb_m :=
    (match coupon_nb with
      | some c => c
      | none => rates_row.nb).div12
  let r_tips_m :=
    (match coupon_tips with
      | some c => c
      | none => rates_row.tips).div12
  let i_short := state.stock_short.mul r_short_m
  let i_nb := state.stock_nb.mul r_nb_m
  let i_tips := state.stock_tips.mul r_tips_m
  (i_short, i_nb, i_tips, (i_short.add i_nb).add i_tips)

/-- `compute_redemptions` over IEEE-double values. -/
def computeRedemptionsE (state : DebtStateE) (decay_nb decay_tips : EFloat) :
    EFloat × EFloat × EFloat :=
  (state.stock_short, state.stock_nb.mul decay_nb,
    state.stock_tips.mul decay_tips)

/-- `update_state` over IEEE-double values. -/
def updateStateE (state : DebtStateE) (new_short new_nb new_tips : EFloat)
    (decay_nb decay_tips : EFloat) : DebtStateE :=
  let r := computeRedemptionsE state decay_nb decay_tips
  { stock_short := (state.stock_short.sub r.1).add new_short
    stock_nb := (state.stock_nb.sub r.2.1).add new_nb
    stock_tips := (state.stock_tips.sub r.2.2).add new_tips }

/-- One monthly trace record over IEEE-double values. -/
structure TraceRowE where
  date : Nat
  stock_short : EFloat
  stock_nb : EFloat
  stock_tips : EFloat
  interest_short : EFloat
  interest_nb : EFloat
  interest_tips : EFloat
  interest_total : EFloat
  other_interest : EFloat
  shares_short : EFloat
  shares_nb : EFloat
  shares_tips : EFloat
  gfn : EFloat
  redemptions_short : EFloat
  redemptions_nb : EFloat
  redemptions_tips : EFloat
  redemptions_total : EFloat
deriving DecidableEq, Repr

/-- Every numeric field of a trace record is finite. -/
def TraceRowE.allFinite (r : TraceRowE) : Bool :=
  r.stock_short.isFin && r.stock_nb.isFin && r.stock_tips.isFin &&
  r.interest_short.isFin && r.interest_nb.isFin && r.interest_tips.isFin &&
  r.interest_total.isFin && r.other_interest.isFin &&
  r.shares_short.isFin && r.shares_nb.isFin && r.shares_tips.isFin &&
  r.gfn.isFin && r.redemptions_short.isFin && r.redemptions_nb.isFin &&
  r.redemptions_tips.isFin && r.redemptions_total.isFin

/-- `series.reindex(idx).fillna(0.0)` over IEEE-double values: months
missing from the series, and NaN entries, are replaced by `0.0`; ±Inf
entries pass through (`fillna` replaces only NaN). -/
def seriesGetE : List (Nat × EFloat) → Nat → EFloat
  | [], _ => .fin 0
  | (k, v) :: rest, d =>
    if k = d then (if v = .nan then .fin 0 else v) else seriesGetE rest d

/-- The monthly loop body of `ProjectionEngine.run` over IEEE-double
values. -/
def runStepE (rates shares : Nat → BucketsE) (deficits other : Nat → EFloat)
    (decay_nb decay_tips : EFloat) (coupon_nb coupon_tips : Option EFloat)
    (state : DebtStateE) (dt : Nat) : TraceRowE × DebtStateE :=
  let r_row := rates dt
  let sh_row := shares dt
  let acc := computeInterestE state r_row coupon_nb coupon_tips
  let red := computeRedemptionsE state decay_nb decay_tips
  let red_total := (red.1.add red.2.1).add red.2.2
  let gfn := (((deficits dt).add acc.2.2.2).add (other dt)).add red_total
  let new_short := sh_row.short.mul gfn
  let new_nb := sh_row.nb.mul gfn
  let new_tips := sh_row.tips.mul gfn
  (⟨dt, state.stock_short, state.stock_nb, state.stock_tips,
      acc.1, acc.2.1, acc.2.2.1, acc.2.2.2, other dt,
      sh_row.short, sh_row.nb, sh_row.tips, gfn,
      red.1, red.2.1, red.2.2, red_total⟩,
    updateStateE state new_short new_nb new_tips decay_nb decay_tips)

/-- The monthly loop of `ProjectionEngine.run` over IEEE-double values. -/
def runGoE (rates shares : Nat → BucketsE) (deficits other : Nat → EFloat)
    (decay_nb decay_tips : EFloat) (coupon_nb coupon_tips : Option EFloat)
    (state : DebtStateE) : List Nat → List TraceRowE
  | [] => []
  | dt :: rest =>
    let p := runStepE rates shares deficits other decay_nb decay_tips
      coupon_nb coupon_tips state dt
    p.1 :: runGoE rates shares deficits other decay_nb decay_tips
      coupon_nb coupon_tips p.2 rest

/-- `ProjectionEngine.run` over IEEE-double values, the embedding used for
the finiteness claims: reindex/zero-fill the series, then loop.  The
source performs no finiteness validation anywhere in `run`. -/
def runE (rates shares : Nat → BucketsE) (idx : List Nat)
    (start_state : DebtStateE) (deficits_monthly : List (Nat × EFloat))
    (other_interest_monthly : Option (List (Nat × EFloat)))
    (decay_nb decay_tips : EFloat) (coupon_nb coupon_tips : Option EFloat) :
    List TraceRowE :=
  let deficits : Nat → EFloat := seriesGetE deficits_monthly
  let other : Nat → EFloat :=
    match other_interest_monthly with
    | none => fun _ => .fin 0
    | some s => seriesGetE s
  runGoE rates shares deficits other decay_nb decay_tips coupon_nb
    coupon_tips start_state idx

end InterestExpense

namespace InterestExpense

/-- C4: `compute_redemptions` redeems the full opening short stock, the
decay fraction of the `nb`/`tips` stocks, and under non-negative stocks and
decays in `[0,1]` each `nb`/`tips` redemption lies between `0` and the
opening stock of its bucket. -/
theorem compute_redemptions_rule_and_bounds (state : DebtState)
    (decay_nb decay_tips : ℚ)
    (hnb : 0 ≤ state.stock_nb) (htips : 0 ≤ state.stock_tips)
    (hdnb0 : 0 ≤ decay_nb) (hdnb1 : decay_nb ≤ 1)
    (hdt0 : 0 ≤ decay_tips) (hdt1 : decay_tips ≤ 1) :
    (compute_redemptions state decay_nb decay_tips).1 = state.stock_short ∧
    (compute_redemptions state decay_nb decay_tips).2.1 =
      state.stock_nb * decay_nb ∧
    (compute_redemptions state decay_nb decay_tips).2.2 =
      state.stock_tips * decay_tips ∧
    0 ≤ (compute_redemptions state decay_nb decay_tips).2.1 ∧
    (compute_redemptions state decay_nb decay_tips).2.1 ≤ state.stock_nb ∧
    0 ≤ (compute_redemptions state decay_nb decay_tips).2.2 ∧
    (compute_redemptions state decay_nb decay_tips).2.2 ≤ state.stock_tips := by
  refine ⟨rfl, rfl, rfl, ?_, ?_, ?_, ?_⟩ <;> simp only [compute_redemptions]
  · exact mul_nonneg hnb hdnb0
  · calc state.stock_nb * decay_nb ≤ state.stock_nb * 1 :=
        mul_le_mul_of_nonneg_left hdnb1 hnb
      _ = state.stock_nb := mul_one _
  · exact mul_nonneg htips hdt0
  · calc state.stock_tips * decay_tips ≤ state.stock_tips * 1 :=
        mul_le_mul_of_nonneg_left hdt1 htips
      _ = state.stock_tips := mul_one _

/-- Witness for `compute_redemptions_rule_and_bounds` at a concrete state. -/
theorem compute_redemptions_rule_and_bounds_witness :
    (compute_redemptions ⟨100, 200, 50⟩ (1/100) (2/100)).1 = 100 ∧
    (compute_redemptions ⟨100, 200, 50⟩ (1/100) (2/100)).2.1 = 200 * (1/100) ∧
    (compute_redemptions ⟨100, 200, 50⟩ (1/100) (2/100)).2.2 = 50 * (2/100) ∧
    0 ≤ (compute_redemptions ⟨100, 200, 50⟩ (1/100) (2/100)).2.1 ∧
    (compute_redemptions ⟨100, 200, 50⟩ (1/100) (2/100)).2.1 ≤ 200 ∧
    0 ≤ (compute_redemptions ⟨100, 200, 50⟩ (1/100) (2/100)).2.2 ∧
    (compute_redemptions ⟨100, 200, 50⟩ (1/100) (2/100)).2.2 ≤ 50 :=
  compute_redemptions_rule_and_bounds ⟨100, 200, 50⟩ (1/100) (2/100)
    (by norm_num) (by norm_num) (by norm_num) (by norm_num)
    (by norm_num) (by norm_num)

/-- C2: `update_state` sets each bucket to opening stock − redemption +
new issuance; under non-negative stocks and issuance and decays in `[0,1]`
no bucket is driven negative, and the next short stock equals exactly the
new short issuance. -/
theorem update_state_transition (state : DebtState)
    (new_short new_nb new_tips decay_nb decay_tips : ℚ)
    (hs : 0 ≤ state.stock_short) (hnb : 0 ≤ state.stock_nb)
    (htips : 0 ≤ state.stock_tips)
    (hdnb0 : 0 ≤ decay_nb) (hdnb1 : decay_nb ≤ 1)
    (hdt0 : 0 ≤ decay_tips) (hdt1 : decay_tips ≤ 1)
    (hns : 0 ≤ new_short) (hnn : 0 ≤ new_nb) (hnt : 0 ≤ new_tips) :
    (update_state state new_short new_nb new_tips decay_nb decay_tips =
      { stock_short := state.stock_short -
          (compute_redemptions state decay_nb decay_tips).1 + new_short
        stock_nb := state.stock_nb -
          (compute_redemptions state decay_nb decay_tips).2.1 + new_nb
        stock_tips := state.stock_tips -
          (compute_redemptions state decay_nb decay_tips).2.2 + new_tips }) ∧
    0 ≤ (update_state state new_short new_nb new_tips decay_nb
          decay_tips).stock_short ∧
    0 ≤ (update_state state new_short new_nb new_tips decay_nb
          decay_tips).stock_nb ∧
    0 ≤ (update_state state new_short new_nb new_tips decay_nb
          decay_tips).stock_tips ∧
    (update_state state new_short new_nb new_tips decay_nb
        decay_tips).stock_short = new_short := by
  have hpnb : 0 ≤ state.stock_nb - state.stock_nb * decay_nb := by
    have : state.stock_nb * decay_nb ≤ state.stock_nb * 1 :=
      mul_le_mul_of_nonneg_left hdnb1 hnb
    linarith [this]
  have hpt : 0 ≤ state.stock_tips - state.stock_tips * decay_tips := by
    have : state.stock_tips * decay_tips ≤ state.stock_tips * 1 :=
      mul_le_mul_of_nonneg_left hdt1 htips
    linarith [this]
  refine ⟨rfl, ?_, ?_, ?_, ?_⟩
  · simp only [update_state, compute_redemptions]
    linarith
  · simp only [update_state, compute_redemptions]
    linarith
  · simp only [update_state, compute_redemptions]
    linarith
  · simp only [update_state, compute_redemptions]
    ring

/-- Witness for `update_state_transition` at a concrete state. -/
theorem update_state_transition_witness :
    (update_state ⟨100, 200, 50⟩ 7 11 13 (1/100) (2/100) =
      { stock_short := 100 -
          (compute_redemptions ⟨100, 200, 50⟩ (1/100) (2/100)).1 + 7
        stock_nb := 200 -
          (compute_redemptions ⟨100, 200, 50⟩ (1/100) (2/100)).2.1 + 11
        stock_tips := 50 -
          (compute_redemptions ⟨100, 200, 50⟩ (1/100) (2/100)).2.2 + 13 }) ∧
    0 ≤ (update_state ⟨100, 200, 50⟩ 7 11 13 (1/100) (2/100)).stock_short ∧
    0 ≤ (update_state ⟨100, 200, 50⟩ 7 11 13 (1/100) (2/100)).stock_nb ∧
    0 ≤ (update_state ⟨100, 200, 50⟩ 7 11 13 (1/100) (2/100)).stock_tips ∧
    (update_state ⟨100, 200, 50⟩ 7 11 13 (1/100) (2/100)).stock_short = 7 :=
  update_state_transition ⟨100, 200, 50⟩ 7 11 13 (1/100) (2/100)
    (by norm_num) (by norm_num) (by norm_num) (by norm_num) (by norm_num)
    (by norm_num) (by norm_num) (by norm_num) (by norm_num) (by norm_num)

/-- C3: `compute_interest` returns per-bucket interest equal to opening
stock × (annual rate / 12), where the `nb`/`tips` annual rates are the
existing-coupon overrides when supplied and the provider's current-month
rates otherwise, and `interest_total` is exactly the sum of the three
bucket interests.  (Over `ℚ` every rate is finite, so the claim's
finiteness hypothesis holds automatically.) -/
theorem compute_interest_semantics (state : DebtState) (rates_row : Buckets)
    (coupon_nb coupon_tips : Option ℚ) :
    (compute_interest state rates_row coupon_nb coupon_tips).interest_short =
      state.stock_short * (rates_row.short / 12) ∧
    (compute_interest state rates_row coupon_nb coupon_tips).interest_nb =
      state.stock_nb * ((coupon_nb.getD rates_row.nb) / 12) ∧
    (compute_interest state rates_row coupon_nb coupon_tips).interest_tips =
      state.stock_tips * ((coupon_tips.getD rates_row.tips) / 12) ∧
    (compute_interest state rates_row coupon_nb coupon_tips).interest_total =
      (compute_interest state rates_row coupon_nb
        coupon_tips).interest_short +
      (compute_interest state rates_row coupon_nb coupon_tips).interest_nb +
      (compute_interest state rates_row coupon_nb
        coupon_tips).interest_tips := by
  refine ⟨rfl, ?_, ?_, rfl⟩ <;> cases coupon_nb <;> cases coupon_tips <;> rfl

/-- Every row of the loop satisfies the budget identity against the
engine's effective deficit and other-interest functions. -/
theorem run_go_gfn (R S : Nat → Buckets) (D O : Nat → ℚ)
    (dnb dts : ℚ) (cn ct : Option ℚ) (idx : List Nat) :
    ∀ (state : DebtState) (row : TraceRow),
      row ∈ run_go R S D O dnb dts cn ct state idx →
      row.gfn = D row.date + row.interest_total + row.other_interest +
        row.redemptions_total := by
  induction idx with
  | nil => intro state row h; simp [run_go] at h
  | cons dt rest ih =>
    intro state row h
    simp only [run_go, List.mem_cons] at h
    rcases h with h | h
    · subst h; rfl
    · exact ih _ _ h

/-- C1: for every month of `ProjectionEngine.run`, the recorded gross
financing need equals the month's primary deficit plus the recorded
`interest_total`, `other_interest` and `redemptions_total`
(`GFN = primary_deficit + interest_total + other_interest +
redemptions_total`, exactly over `ℚ`, hence a fortiori within the claimed
float tolerance), and the state advanced past each month is the update by
new issuance equal to each bucket's recorded share times the recorded GFN. -/
theorem run_budget_identity_and_issuance (R S : Nat → Buckets)
    (idx : List Nat) (st : DebtState) (defs : List (Nat × ℚ))
    (otherOpt : Option (List (Nat × ℚ))) (dnb dts : ℚ)
    (cn ct : Option ℚ) :
    (∀ row ∈ ProjectionEngine.run R S idx st defs otherOpt dnb dts cn ct,
      row.gfn = seriesGet defs row.date + row.interest_total +
        row.other_interest + row.redemptions_total) ∧
    (∀ (D O : Nat → ℚ) (state : DebtState) (dt : Nat),
      (run_step R S D O dnb dts cn ct state dt).2 =
        update_state state
          ((run_step R S D O dnb dts cn ct state dt).1.shares_short *
            (run_step R S D O dnb dts cn ct state dt).1.gfn)
          ((run_step R S D O dnb dts cn ct state dt).1.shares_nb *
            (run_step R S D O dnb dts cn ct state dt).1.gfn)
          ((run_step R S D O dnb dts cn ct state dt).1.shares_tips *
            (run_step R S D O dnb dts cn ct state dt).1.gfn)
          dnb dts) := by
  constructor
  · intro row h
    exact run_go_gfn R S _ _ dnb dts cn ct idx st row h
  · intro D O state dt
    rfl

/-- Witness for `run_budget_identity_and_issuance`: one concrete month
(deficit 123, constant rates, fixed shares) whose recorded GFN satisfies
the budget identity. -/
theorem run_budget_identity_and_issuance_witness :
    (⟨0, 1000, 2000, 500, 5/2, 20/3, 5/6, 10, 0, 1/5, 7/10, 1/10, 1158,
        1000, 20, 5, 1025⟩ : TraceRow) ∈
      ProjectionEngine.run (fun _ => ⟨3/100, 4/100, 2/100⟩)
        (fun _ => ⟨1/5, 7/10, 1/10⟩) [0] ⟨1000, 2000, 500⟩ [(0, 123)]
        none (1/100) (1/100) none none ∧
    (1158 : ℚ) = seriesGet [(0, 123)] 0 + 10 + 0 + 1025 := by
  have hrun : ProjectionEngine.run (fun _ => ⟨3/100, 4/100, 2/100⟩)
      (fun _ => ⟨1/5, 7/10, 1/10⟩) [0] ⟨1000, 2000, 500⟩ [(0, 123)]
      none (1/100) (1/100) none none =
      [⟨0, 1000, 2000, 500, 5/2, 20/3, 5/6, 10, 0, 1/5, 7/10, 1/10, 1158,
        1000, 20, 5, 1025⟩] := by
    norm_num [ProjectionEngine.run, run_go, run_step, compute_interest,
      compute_redemptions, seriesGet]
  have hmem : (⟨0, 1000, 2000, 500, 5/2, 20/3, 5/6, 10, 0, 1/5, 7/10,
      1/10, 1158, 1000, 20, 5, 1025⟩ : TraceRow) ∈
      ProjectionEngine.run (fun _ => ⟨3/100, 4/100, 2/100⟩)
        (fun _ => ⟨1/5, 7/10, 1/10⟩) [0] ⟨1000, 2000, 500⟩ [(0, 123)]
        none (1/100) (1/100) none none := by
    rw [hrun]
    exact List.mem_singleton.2 rfl
  refine ⟨hmem, ?_⟩
  exact (run_budget_identity_and_issuance (fun _ => ⟨3/100, 4/100, 2/100⟩)
    (fun _ => ⟨1/5, 7/10, 1/10⟩) [0] ⟨1000, 2000, 500⟩ [(0, 123)]
    none (1/100) (1/100) none none).1 _ hmem

/-- `run_go` produces exactly one trace row per month of the index. -/
theorem run_go_length (R S : Nat → Buckets) (D O : Nat → ℚ)
    (dnb dts : ℚ) (cn ct : Option ℚ) (idx : List Nat) :
    ∀ state : DebtState,
      (run_go R S D O dnb dts cn ct state idx).length = idx.length := by
  induction idx with
  | nil => intro state; rfl
  | cons dt rest ih =>
    intro state
    simp only [run_go, List.length_cons]
    rw [ih]

/-- An all-zero series reads back `0` at every month. -/
theorem seriesGet_all_zero (zs : List (Nat × ℚ))
    (hz : ∀ p ∈ zs, (p : Nat × ℚ).2 = 0) (d : Nat) : seriesGet zs d = 0 := by
  induction zs with
  | nil => rfl
  | cons p rest ih =>
    obtain ⟨k, v⟩ := p
    have hv : v = 0 := hz (k, v) (List.mem_cons_self _ _)
    simp only [seriesGet]
    by_cases h : k = d
    · simp [h, hv]
    · simp only [h, if_false]
      exact ih fun q hq => hz q (List.mem_cons_of_mem _ hq)

/-- C9: the engine reindexes the deficit and other-interest series itself
with missing months zero-filled, so a series that does not cover the index
never causes an error (the run always yields one row per month), passing
`None` for `other_interest_monthly` is equivalent to passing any all-zero
series, and a month absent from a series contributes exactly `0`. -/
theorem run_series_reindex_zero_fill :
    (∀ (R S : Nat → Buckets) (idx : List Nat) (st : DebtState)
        (defs zs : List (Nat × ℚ)) (dnb dts : ℚ) (cn ct : Option ℚ),
      (∀ p ∈ zs, (p : Nat × ℚ).2 = 0) →
      ProjectionEngine.run R S idx st defs (some zs) dnb dts cn ct =
        ProjectionEngine.run R S idx st defs none dnb dts cn ct) ∧
    (∀ (R S : Nat → Buckets) (idx : List Nat) (st : DebtState)
        (defs : List (Nat × ℚ)) (oth : Option (List (Nat × ℚ)))
        (dnb dts : ℚ) (cn ct : Option ℚ),
      (ProjectionEngine.run R S idx st defs oth dnb dts cn ct).length =
        idx.length) ∧
    (∀ (s : List (Nat × ℚ)) (d : Nat),
      d ∉ s.map Prod.fst → seriesGet s d = 0) := by
  refine ⟨?_, ?_, ?_⟩
  · intro R S idx st defs zs dnb dts cn ct hz
    have hfun : seriesGet zs = fun _ => (0 : ℚ) :=
      funext fun d => seriesGet_all_zero zs hz d
    simp only [ProjectionEngine.run, hfun]
  · intro R S idx st defs oth dnb dts cn ct
    cases oth <;>
      exact run_go_length R S _ _ dnb dts cn ct idx st
  · intro s d hd
    induction s with
    | nil => rfl
    | cons p rest ih =>
      obtain ⟨k, v⟩ := p
      simp only [List.map_cons, List.mem_cons] at hd
      push_neg at hd
      simp only [seriesGet]
      rw [if_neg fun h => hd.1 h.symm]
      exact ih hd.2

/-- Membership in a stable insertion step. -/
theorem mem_insertSorted (a x : Nat × Buckets) :
    ∀ l, x ∈ insertSorted a l ↔ x = a ∨ x ∈ l
  | [] => by simp [insertSorted]
  | b :: l => by
    simp only [insertSorted]
    by_cases h : b.1 ≤ a.1
    · rw [if_pos h]
      simp only [List.mem_cons, mem_insertSorted a x l]
      tauto
    · rw [if_neg h]
      simp only [List.mem_cons]

/-- A stable insertion step preserves sortedness by start month. -/
theorem insertSorted_pairwise (a : Nat × Buckets) :
    ∀ l, List.Pairwise (fun p q : Nat × Buckets => p.1 ≤ q.1) l →
      List.Pairwise (fun p q : Nat × Buckets => p.1 ≤ q.1) (insertSorted a l)
  | [], _ => by simp [insertSorted]
  | b :: l, h => by
    rw [List.pairwise_cons] at h
    obtain ⟨hb, hl⟩ := h
    simp only [insertSorted]
    by_cases hba : b.1 ≤ a.1
    · rw [if_pos hba, List.pairwise_cons]
      refine ⟨fun y hy => ?_, insertSorted_pairwise a l hl⟩
      rcases (mem_insertSorted a y l).1 hy with rfl | hy'
      · exact hba
      · exact hb y hy'
    · rw [if_neg hba, List.pairwise_cons]
      refine ⟨fun y hy => ?_, List.pairwise_cons.2 ⟨hb, hl⟩⟩
      rcases List.mem_cons.1 hy with rfl | hy'
      · exact le_of_not_le hba
      · exact le_trans (le_of_not_le hba) (hb y hy')

/-- The constructed segment list of a `PiecewiseSharesPolicy` is sorted by
start month. -/
theorem sortSegments_pairwise (l : List (Nat × Buckets)) :
    List.Pairwise (fun p q : Nat × Buckets => p.1 ≤ q.1) (sortSegments l) := by
  suffices h : ∀ (l acc : List (Nat × Buckets)),
      List.Pairwise (fun p q : Nat × Buckets => p.1 ≤ q.1) acc →
      List.Pairwise (fun p q : Nat × Buckets => p.1 ≤ q.1)
        (l.foldl (fun acc a => insertSorted a acc) acc) by
    exact h l [] List.Pairwise.nil
  intro l
  induction l with
  | nil => intro acc hacc; exact hacc
  | cons a rest ih =>
    intro acc hacc
    exact ih (insertSorted a acc) (insertSorted_pairwise a acc hacc)

/-- A stable insertion step adds one element. -/
theorem insertSorted_length (a : Nat × Buckets) :
    ∀ l, (insertSorted a l).length = l.length + 1
  | [] => rfl
  | b :: l => by
    simp only [insertSorted]
    by_cases h : b.1 ≤ a.1
    · rw [if_pos h]
      simp [insertSorted_length a l]
    · rw [if_neg h]
      simp

/-- Sorting preserves the number of segments. -/
theorem sortSegments_length (l : List (Nat × Buckets)) :
    (sortSegments l).length = l.length := by
  suffices h : ∀ (l acc : List (Nat × Buckets)),
      (l.foldl (fun acc a => insertSorted a acc) acc).length =
        acc.length + l.length by
    simpa using h l []
  intro l
  induction l with
  | nil => intro acc; simp
  | cons a rest ih =>
    intro acc
    simp only [List.foldl_cons, List.length_cons]
    rw [ih (insertSorted a acc), insertSorted_length]
    omega

/-- Normalisation preserves the number of segments when it succeeds. -/
theorem normalizeSegments_length :
    ∀ (segs : List Segment) (norm : List (Nat × Buckets)),
      normalizeSegments segs = .ok norm → norm.length = segs.length
  | [], norm, h => by
    simp only [normalizeSegments] at h
    cases h
    rfl
  | seg :: rest, norm, h => by
    simp only [normalizeSegments] at h
    cases hv : _validate_shares_dict seg.short seg.nb seg.tips with
    | error e => rw [hv] at h; cases h
    | ok v =>
      rw [hv] at h
      cases hr : normalizeSegments rest with
      | error e => rw [hr] at h; cases h
      | ok l =>
        rw [hr] at h
        cases h
        simp [normalizeSegments_length rest l hr]

/-- On a list sorted by start, the break-early pick loop returns the value
of the last segment whose start is `≤` the queried month, or its
accumulator when there is none. -/
theorem pickSegment_sorted (d : Nat) :
    ∀ segs : List (Nat × Buckets),
      List.Pairwise (fun p q : Nat × Buckets => p.1 ≤ q.1) segs →
      ∀ pick : Option Buckets,
        pickSegment segs d pick =
          match (segs.filter fun sv => sv.1 ≤ d).getLast? with
          | some sv => some sv.2
          | none => pick
  | [], _, pick => by simp [pickSegment]
  | (s, v) :: rest, h, pick => by
    rw [List.pairwise_cons] at h
    obtain ⟨hhead, htail⟩ := h
    simp only [pickSegment]
    by_cases hs : s ≤ d
    · rw [if_pos hs]
      rw [pickSegment_sorted d rest htail (some v)]
      have hfil : ((s, v) :: rest).filter (fun sv => sv.1 ≤ d) =
          (s, v) :: rest.filter fun sv => sv.1 ≤ d := by
        simp [List.filter_cons, hs]
      rw [hfil]
      cases hfr : rest.filter fun sv => sv.1 ≤ d with
      | nil => simp
      | cons x xs =>
        have hx : ∃ y, (x :: xs).getLast? = some y :=
          ⟨(x :: xs).getLast (by simp), List.getLast?_eq_getLast _ _⟩
        obtain ⟨y, hy⟩ := hx
        rw [List.getLast?_cons_cons, hy]
    · rw [if_neg hs]
      have hfil : ((s, v) :: rest).filter (fun sv => sv.1 ≤ d) = [] := by
        rw [List.filter_eq_nil_iff]
        intro a ha
        rcases List.mem_cons.1 ha with rfl | ha'
        · simpa using hs
        · have : s ≤ a.1 := hhead a ha'
          simp only [decide_eq_true_eq]
          omega
      rw [hfil]
      rfl

/-- On a sorted segment list, the per-month row of
`PiecewiseSharesPolicy.get` is exactly the spec's latest-segment
selection. -/
theorem rowForMonth_eq_spec (segs : List (Nat × Buckets))
    (h : List.Pairwise (fun p q : Nat × Buckets => p.1 ≤ q.1) segs)
    (d : Nat) : rowForMonth segs d = specLatestSegment segs d := by
  unfold rowForMonth specLatestSegment
  rw [pickSegment_sorted d segs h none]
  cases (segs.filter fun sv => sv.1 ≤ d).getLast? with
  | none => rfl
  | some sv => rfl

/-- `Option`-valued `mapM` respects pointwise equality on the list. -/
theorem mapM_option_congr {α β : Type} (f g : α → Option β) :
    ∀ l : List α, (∀ a ∈ l, f a = g a) → l.mapM f = l.mapM g
  | [], _ => rfl
  | a :: l, h => by
    simp only [List.mapM_cons]
    rw [h a (List.mem_cons_self a l),
      mapM_option_congr f g l fun b hb => h b (List.mem_cons_of_mem a hb)]

/-- The row-building loop agrees with mapping the per-month row function
over the index. -/
theorem getRows_eq_mapM (segs : List (Nat × Buckets)) :
    ∀ idx : List Nat, getRows segs idx = idx.mapM (rowForMonth segs)
  | [] => rfl
  | d :: rest => by
    simp only [getRows, List.mapM_cons]
    cases rowForMonth segs d with
    | none => rfl
    | some v =>
      rw [getRows_eq_mapM segs rest]
      cases rest.mapM (rowForMonth segs) <;> rfl

/-- C5: for a `PiecewiseSharesPolicy` constructed from a non-empty segment
list, `get` returns, for each queried month, precisely the spec's
selection — the share triple of the latest stored segment whose start is
`≤` that month, the first segment's shares for earlier months — and that
selection is defined (`isSome`) for every month, so `get` never fails.
The stored segments are stably sorted by start at construction, so
duplicate starts keep the latest in list order.  The scenario of the claim
(segment A at M0, segment B at M0+2, 4-month index) is the witness. -/
theorem piecewise_get_latest_segment (segs : List Segment)
    (p : PiecewiseSharesPolicy) (hne : segs ≠ [])
    (hmk : mkPiecewiseSharesPolicy segs = .ok p) (idx : List Nat) :
    p.get idx = idx.mapM (specLatestSegment p.segments) ∧
    ∀ d : Nat, (specLatestSegment p.segments d).isSome = true := by
  obtain ⟨norm, hnorm, hp⟩ : ∃ norm, normalizeSegments segs = .ok norm ∧
      p.segments = sortSegments norm := by
    unfold mkPiecewiseSharesPolicy at hmk
    cases hn : normalizeSegments segs with
    | error e => rw [hn] at hmk; cases hmk
    | ok norm =>
      rw [hn] at hmk
      cases hmk
      exact ⟨norm, rfl, rfl⟩
  have hsorted : List.Pairwise (fun a b : Nat × Buckets => a.1 ≤ b.1)
      p.segments := by
    rw [hp]; exact sortSegments_pairwise norm
  have hlen : p.segments.length = segs.length := by
    rw [hp, sortSegments_length, normalizeSegments_length segs norm hnorm]
  have hsne : p.segments ≠ [] := by
    intro hnil
    apply hne
    have := hlen
    rw [hnil] at this
    exact List.length_eq_zero.1 this.symm
  constructor
  · show getRows p.segments idx = _
    rw [getRows_eq_mapM]
    exact mapM_option_congr _ _ idx fun d _ =>
      rowForMonth_eq_spec p.segments hsorted d
  · intro d
    unfold specLatestSegment
    cases hl : (p.segments.filter fun sv => sv.1 ≤ d).getLast? with
    | some sv => rfl
    | none =>
      cases hseg : p.segments with
      | nil => exact absurd hseg hsne
      | cons x xs => simp [hseg]

/-- Witness for `piecewise_get_latest_segment`: the claim's 4-month
piecewise-switch scenario with M0 = month 0. -/
theorem piecewise_get_latest_segment_witness :
    PiecewiseSharesPolicy.get
        ⟨[(0, ⟨1/5, 7/10, 1/10⟩), (2, ⟨3/10, 3/5, 1/10⟩)]⟩ [0, 1, 2, 3] =
      some [⟨1/5, 7/10, 1/10⟩, ⟨1/5, 7/10, 1/10⟩,
        ⟨3/10, 3/5, 1/10⟩, ⟨3/10, 3/5, 1/10⟩] := by
  have hmk : mkPiecewiseSharesPolicy
      [⟨0, 1/5, 7/10, 1/10⟩, ⟨2, 3/10, 3/5, 1/10⟩] =
      .ok ⟨[(0, ⟨1/5, 7/10, 1/10⟩), (2, ⟨3/10, 3/5, 1/10⟩)]⟩ := by
    norm_num [mkPiecewiseSharesPolicy, normalizeSegments,
      _validate_shares_dict, sortSegments, insertSorted]
  have h := piecewise_get_latest_segment
    [⟨0, 1/5, 7/10, 1/10⟩, ⟨2, 3/10, 3/5, 1/10⟩]
    ⟨[(0, ⟨1/5, 7/10, 1/10⟩), (2, ⟨3/10, 3/5, 1/10⟩)]⟩
    (by simp) hmk [0, 1, 2, 3]
  rw [h.1]
  rfl

/-- C10: constructing a `PiecewiseSharesPolicy` from an empty segment list
succeeds (per-segment validation is vacuous), but `get` on any non-empty
month index hits the `values[0]` index error (modelled by `none`) rather
than returning rows or a configuration error, while `get` on the empty
index returns the empty table. -/
theorem piecewise_empty_segments (idx : List Nat) (hne : idx ≠ []) :
    mkPiecewiseSharesPolicy [] = .ok ⟨[]⟩ ∧
    PiecewiseSharesPolicy.get ⟨[]⟩ idx = none ∧
    PiecewiseSharesPolicy.get ⟨[]⟩ [] = some [] := by
  refine ⟨rfl, ?_, rfl⟩
  cases idx with
  | nil => exact absurd rfl hne
  | cons d rest => rfl

/-- Segment-by-segment normalisation succeeds exactly when every
segment's shares pass validation. -/
theorem normalizeSegments_ok_iff :
    ∀ segs : List Segment,
      (∃ l, normalizeSegments segs = .ok l) ↔
      ∀ seg ∈ segs, ∃ x,
        _validate_shares_dict seg.short seg.nb seg.tips = .ok x
  | [] => by simp [normalizeSegments]
  | seg :: rest => by
    simp only [normalizeSegments, List.mem_cons]
    cases hv : _validate_shares_dict seg.short seg.nb seg.tips with
    | error e =>
      constructor
      · rintro ⟨l, hl⟩; cases hl
      · intro h
        obtain ⟨x, hx⟩ := h seg (Or.inl rfl)
        rw [hv] at hx
        cases hx
    | ok v =>
      cases hr : normalizeSegments rest with
      | error e =>
        constructor
        · rintro ⟨l, hl⟩; cases hl
        · intro h
          have : ∃ l, normalizeSegments rest = .ok l :=
            (normalizeSegments_ok_iff rest).2 fun sg hsg => h sg (Or.inr hsg)
          obtain ⟨l, hl⟩ := this
          rw [hr] at hl
          cases hl
      | ok l =>
        constructor
        · intro _ sg hsg
          rcases hsg with rfl | hsg'
          · exact ⟨v, hv⟩
          · exact ((normalizeSegments_ok_iff rest).1 ⟨l, hr⟩) sg hsg'
        · intro _; exact ⟨_, rfl⟩

/-- C6: `_validate_shares_dict` fails exactly when some share is outside
`[0,1]` or the three shares sum to more than `1e-6` away from `1` (over
`ℚ` the source's redundant non-finiteness disjunct is vacuous, as NaN/±Inf
already fail the bounds check over floats); an out-of-bounds failure names
the first offending share, in the order `short`, `nb`, `tips`, together
with its value; a successfully constructed `FixedSharesPolicy` `get`s the
validated shares for every queried month; and `PiecewiseSharesPolicy`
construction succeeds exactly when every segment passes the same
validation. -/
theorem shares_validation_and_policies (s n t : ℚ) :
    (¬(0 ≤ s ∧ s ≤ 1) →
      _validate_shares_dict s n t = .error (.outOfBounds "short" s)) ∧
    ((0 ≤ s ∧ s ≤ 1) → ¬(0 ≤ n ∧ n ≤ 1) →
      _validate_shares_dict s n t = .error (.outOfBounds "nb" n)) ∧
    ((0 ≤ s ∧ s ≤ 1) → (0 ≤ n ∧ n ≤ 1) → ¬(0 ≤ t ∧ t ≤ 1) →
      _validate_shares_dict s n t = .error (.outOfBounds "tips" t)) ∧
    ((∃ x, _validate_shares_dict s n t = .ok x) ↔
      ((0 ≤ s ∧ s ≤ 1) ∧ (0 ≤ n ∧ n ≤ 1) ∧ (0 ≤ t ∧ t ≤ 1) ∧
        |s + n + t - 1| ≤ 1 / 1000000)) ∧
    (∀ p : FixedSharesPolicy, mkFixedSharesPolicy s n t = .ok p →
      ∀ idx : List Nat, p.get idx = idx.map fun _ => (⟨s, n, t⟩ : Buckets)) ∧
    (∀ segs : List Segment,
      (∃ q, mkPiecewiseSharesPolicy segs = .ok q) ↔
      ∀ seg ∈ segs, ∃ x,
        _validate_shares_dict seg.short seg.nb seg.tips = .ok x) := by
  refine ⟨?_, ?_, ?_, ?_, ?_, ?_⟩
  · intro h
    unfold _validate_shares_dict
    rw [if_pos h]
  · intro h1 h2
    unfold _validate_shares_dict
    rw [if_neg (not_not_intro h1), if_pos h2]
  · intro h1 h2 h3
    unfold _validate_shares_dict
    rw [if_neg (not_not_intro h1), if_neg (not_not_intro h2), if_pos h3]
  · constructor
    · rintro ⟨x, hx⟩
      by_cases h1 : 0 ≤ s ∧ s ≤ 1
      · by_cases h2 : 0 ≤ n ∧ n ≤ 1
        · by_cases h3 : 0 ≤ t ∧ t ≤ 1
          · refine ⟨h1, h2, h3, ?_⟩
            by_contra h4
            unfold _validate_shares_dict at hx
            rw [if_neg (not_not_intro h1), if_neg (not_not_intro h2),
              if_neg (not_not_intro h3), if_pos (lt_of_not_le h4)] at hx
            cases hx
          · unfold _validate_shares_dict at hx
            rw [if_neg (not_not_intro h1), if_neg (not_not_intro h2),
              if_pos h3] at hx
            cases hx
        · unfold _validate_shares_dict at hx
          rw [if_neg (not_not_intro h1), if_pos h2] at hx
          cases hx
      · unfold _validate_shares_dict at hx
        rw [if_pos h1] at hx
        cases hx
    · rintro ⟨hs, hn, ht, hsum⟩
      refine ⟨(s, n, t), ?_⟩
      unfold _validate_shares_dict
      rw [if_neg (not_not_intro hs), if_neg (not_not_intro hn),
        if_neg (not_not_intro ht), if_neg (not_lt.2 hsum)]
  · intro p hp idx
    unfold mkFixedSharesPolicy at hp
    cases hv : _validate_shares_dict s n t with
    | error e => rw [hv] at hp; cases hp
    | ok v =>
      rw [hv] at hp
      cases hp
      rfl
  · intro segs
    unfold mkPiecewiseSharesPolicy
    cases hn : normalizeSegments segs with
    | error e =>
      constructor
      · rintro ⟨q, hq⟩; cases hq
      · intro h
        obtain ⟨l, hl⟩ := (normalizeSegments_ok_iff segs).2 h
        rw [hn] at hl
        cases hl
    | ok l =>
      constructor
      · intro _
        exact (normalizeSegments_ok_iff segs).1 ⟨l, hn⟩
      · intro _; exact ⟨_, rfl⟩

/-- Witness for `shares_validation_and_policies`: an out-of-bounds share
is rejected with an error naming it, and a valid `FixedSharesPolicy`
serves its shares on a concrete two-month index. -/
theorem shares_validation_and_policies_witness :
    _validate_shares_dict (3/2) (1/4) (1/4) =
      .error (.outOfBounds "short" (3/2)) ∧
    FixedSharesPolicy.get ⟨1/5, 7/10, 1/10⟩ [0, 1] =
      [⟨1/5, 7/10, 1/10⟩, ⟨1/5, 7/10, 1/10⟩] := by
  constructor
  · exact (shares_validation_and_policies (3/2) (1/4) (1/4)).1 (by norm_num)
  · exact (shares_validation_and_policies (1/5) (7/10)
      (1/10)).2.2.2.2.1 ⟨1/5, 7/10, 1/10⟩
      (by norm_num [mkFixedSharesPolicy, _validate_shares_dict]) [0, 1]

/-- Witness for `piecewise_empty_segments` on a concrete one-month index. -/
theorem piecewise_empty_segments_witness :
    mkPiecewiseSharesPolicy [] = .ok ⟨[]⟩ ∧
    PiecewiseSharesPolicy.get ⟨[]⟩ [5] = none ∧
    PiecewiseSharesPolicy.get ⟨[]⟩ [] = some [] :=
  piecewise_empty_segments [5] (by decide)

/-- The carry-forward scan returns the rate of the last entry with year
`≤` the queried fiscal year, or its accumulator when there is none. -/
theorem carryLoop_eq_filter_getLast (fy : Nat) :
    ∀ (entries : List (Nat × ℚ)) (last : Option ℚ),
      carryLoop entries fy last =
        match (entries.filter fun yr => yr.1 ≤ fy).getLast? with
        | some yr => some yr.2
        | none => last
  | [], last => by simp [carryLoop]
  | (y, r) :: rest, last => by
    simp only [carryLoop]
    by_cases hy : y ≤ fy
    · rw [if_pos hy, carryLoop_eq_filter_getLast fy rest (some r)]
      have hfil : ((y, r) :: rest).filter (fun yr => yr.1 ≤ fy) =
          (y, r) :: rest.filter fun yr => yr.1 ≤ fy := by
        simp [List.filter_cons, hy]
      rw [hfil]
      cases hfr : rest.filter fun yr => yr.1 ≤ fy with
      | nil => simp
      | cons x xs =>
        obtain ⟨z, hz⟩ : ∃ z, (x :: xs).getLast? = some z :=
          ⟨(x :: xs).getLast (by simp), List.getLast?_eq_getLast _ _⟩
        rw [List.getLast?_cons_cons, hz]
    · rw [if_neg hy, carryLoop_eq_filter_getLast fy rest last]
      have hfil : ((y, r) :: rest).filter (fun yr => yr.1 ≤ fy) =
          rest.filter fun yr => yr.1 ≤ fy := by
        simp [List.filter_cons, hy]
      rw [hfil]

/-- C7 (spec-modelled): the fiscal-year-variable rates provider constructs
successfully exactly when every bucket has at least one rate (otherwise a
configuration error is reported before simulation); once constructed, its
`get` returns exactly one row for every month of any horizon (all values
being rationals, hence finite); and for any non-empty step function the
resolved rate at any fiscal year — including years missing from the map —
is deterministically the latest known rate carried forward (first entry's
rate for years before every entry), never an error. -/
theorem fiscal_year_variable_rates_provider
    (short nb tips : List (Nat × ℚ)) :
    ((∃ p, mkFiscalYearVariableRatesProvider short nb tips = .ok p) ↔
      (short ≠ [] ∧ nb ≠ [] ∧ tips ≠ [])) ∧
    (∀ p, mkFiscalYearVariableRatesProvider short nb tips = .ok p →
      ∀ idx : List Nat, (p.get idx).length = idx.length) ∧
    (∀ entries : List (Nat × ℚ), entries ≠ [] → ∀ fy : Nat,
      ∃ r, specStepRate entries fy = some r ∧
        carryForwardRate entries fy = r) := by
  refine ⟨?_, ?_, ?_⟩
  · unfold mkFiscalYearVariableRatesProvider
    by_cases hs : short = []
    · rw [if_pos hs]
      constructor
      · rintro ⟨p, hp⟩; cases hp
      · rintro ⟨hs', _, _⟩; exact absurd hs hs'
    · rw [if_neg hs]
      by_cases hn : nb = []
      · rw [if_pos hn]
        constructor
        · rintro ⟨p, hp⟩; cases hp
        · rintro ⟨_, hn', _⟩; exact absurd hn hn'
      · rw [if_neg hn]
        by_cases ht : tips = []
        · rw [if_pos ht]
          constructor
          · rintro ⟨p, hp⟩; cases hp
          · rintro ⟨_, _, ht'⟩; exact absurd ht ht'
        · rw [if_neg ht]
          exact ⟨fun _ => ⟨hs, hn, ht⟩, fun _ => ⟨_, rfl⟩⟩
  · intro p _ idx
    unfold FiscalYearVariableRatesProvider.get
    exact List.length_map idx _
  · intro entries hne fy
    unfold carryForwardRate specStepRate
    rw [carryLoop_eq_filter_getLast fy entries none]
    cases hl : (entries.filter fun yr => yr.1 ≤ fy).getLast? with
    | some yr => exact ⟨yr.2, rfl, rfl⟩
    | none =>
      cases hent : entries with
      | nil => exact absurd hent hne
      | cons e es => exact ⟨e.2, rfl, rfl⟩

/-- Witness for `fiscal_year_variable_rates_provider`: fiscal year 2026 is
missing from the `nb` map, and the 2025 rate is carried forward. -/
theorem fiscal_year_variable_rates_provider_witness :
    (∃ p, mkFiscalYearVariableRatesProvider [(2025, 3/100)]
        [(2025, 4/100), (2027, 1/20)] [(2025, 2/100)] = .ok p) ∧
    carryForwardRate [(2025, 4/100), (2027, 1/20)] 2026 = 4/100 := by
  constructor
  · exact (fiscal_year_variable_rates_provider [(2025, 3/100)]
      [(2025, 4/100), (2027, 1/20)] [(2025, 2/100)]).1.2
      ⟨by simp, by simp, by simp⟩
  · obtain ⟨r, hr, hc⟩ := (fiscal_year_variable_rates_provider
      [(2025, 3/100)] [(2025, 4/100), (2027, 1/20)]
      [(2025, 2/100)]).2.2 [(2025, 4/100), (2027, 1/20)] (by simp) 2026
    have he : specStepRate [(2025, 4/100), (2027, 1/20)] 2026 =
        some (4/100) := rfl
    rw [he] at hr
    cases hr
    exact hc

/-- An `EFloat` is finite exactly when it is a `fin`. -/
theorem EFloat.isFin_iff {x : EFloat} : x.isFin = true ↔ ∃ q, x = .fin q := by
  cases x <;> simp [EFloat.isFin]

/-- A month's value read from a series whose entries are finite or NaN is
finite (missing months and NaN read as `0.0`). -/
theorem seriesGetE_isFin :
    ∀ s : List (Nat × EFloat),
      (∀ p ∈ s, (p : Nat × EFloat).2.isFin = true ∨ p.2 = .nan) →
      ∀ d : Nat, (seriesGetE s d).isFin = true
  | [], _, _ => rfl
  | (k, v) :: rest, h, d => by
    simp only [seriesGetE]
    by_cases hk : k = d
    · rw [if_pos hk]
      by_cases hv : v = .nan
      · rw [if_pos hv]; rfl
      · rw [if_neg hv]
        rcases h (k, v) (List.mem_cons_self _ _) with hfin | hnan
        · exact hfin
        · exact absurd hnan hv
    · rw [if_neg hk]
      exact seriesGetE_isFin rest
        (fun p hp => h p (List.mem_cons_of_mem _ hp)) d

/-- The loop body maps a finite state and finite month inputs to a fully
finite trace row and a finite next state. -/
theorem runStepE_finite (R S : Nat → BucketsE) (D O : Nat → EFloat)
    (dnb dts : EFloat) (cn ct : Option EFloat) (state : DebtStateE)
    (d : Nat)
    (hR : (R d).short.isFin = true ∧ (R d).nb.isFin = true ∧
      (R d).tips.isFin = true)
    (hS : (S d).short.isFin = true ∧ (S d).nb.isFin = true ∧
      (S d).tips.isFin = true)
    (hst : state.stock_short.isFin = true ∧ state.stock_nb.isFin = true ∧
      state.stock_tips.isFin = true)
    (hD : (D d).isFin = true) (hO : (O d).isFin = true)
    (hdnb : dnb.isFin = true) (hdts : dts.isFin = true)
    (hcn : ∀ c, cn = some c → c.isFin = true)
    (hct : ∀ c, ct = some c → c.isFin = true) :
    (runStepE R S D O dnb dts cn ct state d).1.allFinite = true ∧
    (runStepE R S D O dnb dts cn ct state d).2.stock_short.isFin = true ∧
    (runStepE R S D O dnb dts cn ct state d).2.stock_nb.isFin = true ∧
    (runStepE R S D O dnb dts cn ct state d).2.stock_tips.isFin = true := by
  obtain ⟨qRs, hqRs⟩ := EFloat.isFin_iff.1 hR.1
  obtain ⟨qRn, hqRn⟩ := EFloat.isFin_iff.1 hR.2.1
  obtain ⟨qRt, hqRt⟩ := EFloat.isFin_iff.1 hR.2.2
  obtain ⟨qSs, hqSs⟩ := EFloat.isFin_iff.1 hS.1
  obtain ⟨qSn, hqSn⟩ := EFloat.isFin_iff.1 hS.2.1
  obtain ⟨qSt, hqSt⟩ := EFloat.isFin_iff.1 hS.2.2
  obtain ⟨q1, hq1⟩ := EFloat.isFin_iff.1 hst.1
  obtain ⟨q2, hq2⟩ := EFloat.isFin_iff.1 hst.2.1
  obtain ⟨q3, hq3⟩ := EFloat.isFin_iff.1 hst.2.2
  obtain ⟨qD, hqD⟩ := EFloat.isFin_iff.1 hD
  obtain ⟨qO, hqO⟩ := EFloat.isFin_iff.1 hO
  obtain ⟨qdn, hqdn⟩ := EFloat.isFin_iff.1 hdnb
  obtain ⟨qdt, hqdt⟩ := EFloat.isFin_iff.1 hdts
  have hcn' : ∃ q, (match cn with
      | some c => c
      | none => EFloat.fin qRn) = .fin q := by
    cases cn with
    | none => exact ⟨qRn, rfl⟩
    | some c => exact EFloat.isFin_iff.1 (hcn c rfl)
  have hct' : ∃ q, (match ct with
      | some c => c
      | none => EFloat.fin qRt) = .fin q := by
    cases ct with
    | none => exact ⟨qRt, rfl⟩
    | some c => exact EFloat.isFin_iff.1 (hct c rfl)
  obtain ⟨qcn, hqcn⟩ := hcn'
  obtain ⟨qct, hqct⟩ := hct'
  simp only [runStepE, computeInterestE, computeRedemptionsE, updateStateE,
    TraceRowE.allFinite, hqRs, hqRn, hqRt, hqSs, hqSn, hqSt, hq1, hq2, hq3,
    hqD, hqO, hqdn, hqdt, hqcn, hqct, EFloat.div12, EFloat.mul, EFloat.add,
    EFloat.sub, EFloat.neg, EFloat.isFin, Bool.and_self, and_self]

/-- Every row of the loop over finite inputs is fully finite. -/
theorem runGoE_finite (R S : Nat → BucketsE) (D O : Nat → EFloat)
    (dnb dts : EFloat) (cn ct : Option EFloat)
    (hR : ∀ m, (R m).short.isFin = true ∧ (R m).nb.isFin = true ∧
      (R m).tips.isFin = true)
    (hS : ∀ m, (S m).short.isFin = true ∧ (S m).nb.isFin = true ∧
      (S m).tips.isFin = true)
    (hD : ∀ m, (D m).isFin = true) (hO : ∀ m, (O m).isFin = true)
    (hdnb : dnb.isFin = true) (hdts : dts.isFin = true)
    (hcn : ∀ c, cn = some c → c.isFin = true)
    (hct : ∀ c, ct = some c → c.isFin = true) (idx : List Nat) :
    ∀ state : DebtStateE,
      state.stock_short.isFin = true → state.stock_nb.isFin = true →
      state.stock_tips.isFin = true →
      ∀ row ∈ runGoE R S D O dnb dts cn ct state idx,
        row.allFinite = true := by
  induction idx with
  | nil => intro state _ _ _ row h; simp [runGoE] at h
  | cons dt rest ih =>
    intro state h1 h2 h3 row h
    have hstep := runStepE_finite R S D O dnb dts cn ct state dt (hR dt)
      (hS dt) ⟨h1, h2, h3⟩ (hD dt) (hO dt) hdnb hdts hcn hct
    simp only [runGoE, List.mem_cons] at h
    rcases h with h | h
    · subst h; exact hstep.1
    · exact ih _ hstep.2.1 hstep.2.2.1 hstep.2.2.2 row h

/-- C8 amended: the engine performs no finiteness validation, so the run
never fails; when every input is finite — finite provider rate and share
rows, a finite start state, deficit and other-interest series whose stored
values are finite or NaN (NaN is zero-filled by the engine's
`fillna(0.0)`), finite decay rates and finite coupon overrides — every
field of every returned trace row is finite.  The original claim's
guarantee for non-finite inputs fails: see the counterexample, where a
`+Inf` coupon override flows into the returned trace. -/
theorem run_finite_of_finite_inputs (R S : Nat → BucketsE)
    (idx : List Nat) (st : DebtStateE) (defs : List (Nat × EFloat))
    (oth : Option (List (Nat × EFloat))) (dnb dts : EFloat)
    (cn ct : Option EFloat)
    (hR : ∀ m, (R m).short.isFin = true ∧ (R m).nb.isFin = true ∧
      (R m).tips.isFin = true)
    (hS : ∀ m, (S m).short.isFin = true ∧ (S m).nb.isFin = true ∧
      (S m).tips.isFin = true)
    (hst : st.stock_short.isFin = true ∧ st.stock_nb.isFin = true ∧
      st.stock_tips.isFin = true)
    (hdefs : ∀ p ∈ defs, (p : Nat × EFloat).2.isFin = true ∨ p.2 = .nan)
    (hoth : ∀ s, oth = some s →
      ∀ p ∈ s, (p : Nat × EFloat).2.isFin = true ∨ p.2 = .nan)
    (hdnb : dnb.isFin = true) (hdts : dts.isFin = true)
    (hcn : ∀ c, cn = some c → c.isFin = true)
    (hct : ∀ c, ct = some c → c.isFin = true) :
    ∀ row ∈ runE R S idx st defs oth dnb dts cn ct,
      row.allFinite = true := by
  intro row h
  have hD : ∀ m, (seriesGetE defs m).isFin = true :=
    seriesGetE_isFin defs hdefs
  have hO : ∀ m, ((match oth with
      | none => fun _ => EFloat.fin 0
      | some s => seriesGetE s) m).isFin = true := by
    cases oth with
    | none => intro m; rfl
    | some s => exact seriesGetE_isFin s (hoth s rfl)
  exact runGoE_finite R S _ _ dnb dts cn ct hR hS hD hO hdnb hdts hcn hct
    idx st hst.1 hst.2.1 hst.2.2 row h

/-- Witness for `run_finite_of_finite_inputs` on a concrete two-month
run. -/
theorem run_finite_of_finite_inputs_witness :
    (runE (fun _ => ⟨.fin (3/100), .fin (4/100), .fin (2/100)⟩)
      (fun _ => ⟨.fin (1/5), .fin (7/10), .fin (1/10)⟩) [0, 1]
      ⟨.fin 1000, .fin 2000, .fin 500⟩ [(0, .fin 123)] none
      (.fin (1/100)) (.fin (1/100)) none none).all
        TraceRowE.allFinite = true := by
  apply List.all_eq_true.2
  intro row h
  exact run_finite_of_finite_inputs
    (fun _ => ⟨.fin (3/100), .fin (4/100), .fin (2/100)⟩)
    (fun _ => ⟨.fin (1/5), .fin (7/10), .fin (1/10)⟩) [0, 1]
    ⟨.fin 1000, .fin 2000, .fin 500⟩ [(0, .fin 123)] none
    (.fin (1/100)) (.fin (1/100)) none none
    (fun _ => ⟨rfl, rfl, rfl⟩) (fun _ => ⟨rfl, rfl, rfl⟩) ⟨rfl, rfl, rfl⟩
    (by intro p hp; left; cases List.mem_singleton.1 hp; rfl)
    (by intro s hs; cases hs) rfl rfl
    (by intro c hc; cases hc) (by intro c hc; cases hc) row h

/-- C8 counterexample: a run with a non-finite (`+Inf`) existing-coupon
override for `nb` returns normally (the source `run` contains no
finiteness check and no failure path of its own), and the returned
one-row trace carries `+Inf` in its `interest_nb` field — a non-finite
value in the trace, contradicting the claim that such a run either fails
or returns only finite values. -/
theorem run_nonfinite_override_in_trace :
    (runE (fun _ => ⟨.fin (3/100), .fin (4/100), .fin (2/100)⟩)
      (fun _ => ⟨.fin (1/5), .fin (7/10), .fin (1/10)⟩) [0]
      ⟨.fin 1000, .fin 2000, .fin 500⟩ [] none
      (.fin (1/100)) (.fin (1/100)) (some .inf) none).map
        (fun row => row.interest_nb) = [EFloat.inf] ∧
    EFloat.inf.isFin = false := by
  constructor
  · norm_num [runE, runGoE, runStepE, computeInterestE, EFloat.div12,
      EFloat.mul]
  · rfl

/-- Witness for `run_series_reindex_zero_fill` at concrete inputs. -/
theorem run_series_reindex_zero_fill_witness :
    (ProjectionEngine.run (fun _ => ⟨3/100, 4/100, 2/100⟩)
        (fun _ => ⟨1/5, 7/10, 1/10⟩) [0, 1] ⟨1000, 2000, 500⟩ [(0, 123)]
        (some [(0, 0), (7, 0)]) (1/100) (1/100) none none =
      ProjectionEngine.run (fun _ => ⟨3/100, 4/100, 2/100⟩)
        (fun _ => ⟨1/5, 7/10, 1/10⟩) [0, 1] ⟨1000, 2000, 500⟩ [(0, 123)]
        none (1/100) (1/100) none none) ∧
    (ProjectionEngine.run (fun _ => ⟨3/100, 4/100, 2/100⟩)
        (fun _ => ⟨1/5, 7/10, 1/10⟩) [0, 1] ⟨1000, 2000, 500⟩ [(0, 123)]
        none (1/100) (1/100) none none).length = 2 ∧
    seriesGet [(3, 5)] 7 = 0 :=
  ⟨run_series_reindex_zero_fill.1 (fun _ => ⟨3/100, 4/100, 2/100⟩)
      (fun _ => ⟨1/5, 7/10, 1/10⟩) [0, 1] ⟨1000, 2000, 500⟩ [(0, 123)]
      [(0, 0), (7, 0)] (1/100) (1/100) none none (by decide),
    run_series_reindex_zero_fill.2.1 (fun _ => ⟨3/100, 4/100, 2/100⟩)
      (fun _ => ⟨1/5, 7/10, 1/10⟩) [0, 1] ⟨1000, 2000, 500⟩ [(0, 123)]
      none (1/100) (1/100) none none,
    run_series_reindex_zero_fill.2.2 [(3, 5)] 7 (by decide)⟩

end InterestExpense
